import Mathlib

/-!
Shallow embedding of src/loss/torch/detection_loss.py (class v8DetectionLoss
and class BboxLoss).  Tensors become total functions over Fin-indexed
positions and float arithmetic becomes real arithmetic.  Third-party
primitives that the file imports but whose sources are not part of the
snapshot (ultralytics bbox_iou, the DFLoss composition, xywh2xyxy, the
task-aligned assigner from utils/tal.py, dist2bbox, and the distillation
losses kd_loss / rkd_loss) are either abstract parameters constrained by
their documented contracts or definitions modelled from the specification;
each such definition says so in its doc comment.
-/

namespace DetLoss

section TopK

variable {α : Type} [LinearOrder α] {A : ℕ}

/-- Strict preference order used to model torch.topk on a vector v: position
j is ranked strictly before position i when its value is larger, with exact
ties broken towards the smaller index (the source relies on an unspecified
stable tie-break, see spec section 9; this embedding fixes the
smallest-index rule). -/
def pref (v : Fin A → α) (j i : Fin A) : Prop :=
  v i < v j ∨ (v i = v j ∧ j < i)

instance prefDecidable (v : Fin A → α) : DecidableRel (pref v) := fun j i => by
  unfold pref; infer_instance

/-- Number of positions strictly preferred to i: the zero-based rank of i in
the descending sort performed by torch.topk. -/
def rank (v : Fin A → α) (i : Fin A) : ℕ :=
  (Finset.univ.filter (fun j => pref v j i)).card

/-- The index set produced by torch.topk(v, k): the k best-ranked positions.
torch.topk requires k not to exceed the vector length; within that regime
this set is exactly the returned index set.  Outside it (k larger than the
length) the library raises RuntimeError while this model truncates to all
positions, so concrete scenarios below stay within k at most the length. -/
def topkIdx (v : Fin A → α) (k : ℕ) : Finset (Fin A) :=
  Finset.univ.filter (fun i => rank v i < k)

end TopK

section SelectorDefs

variable {α : Type} [LinearOrderedRing α] {A : ℕ}

/-- Per-instance masked score from line 183 of the source: the joint quality
score is multiplied by the boolean instance mask (iou_cls_scores[batch_index]
* instance_mask), so positions of other instances and of the background enter
torch.topk with the value 0 rather than with a disqualifying low value. -/
def instMasked (score : Fin A → α) (idx : Fin A → Option ℕ) (g : Option ℕ) :
    Fin A → α :=
  fun a => score a * (if idx a = g then 1 else 0)

/-- Values iterated by the loop at line 180,
torch.unique(target_gt_idx[batch_index]): every distinct per-position
instance index, including the unassigned/background sentinel (modelled as
none, following spec section 4.3) whenever some position carries it. -/
def uniqueIdx (idx : Fin A → Option ℕ) : Finset (Option ℕ) :=
  Finset.image idx Finset.univ

/-- The embedding-selection mask built by the loop at lines 178-185 of
__call__: a position is marked exactly when some iterated index value g puts
it into the top-k of the g-masked score.  The loop only ever sets entries to
True, so the iteration order is irrelevant and the result is this union. -/
def embedSelect (score : Fin A → α) (idx : Fin A → Option ℕ) (k : ℕ) :
    Fin A → Bool :=
  fun a => decide (∃ g ∈ uniqueIdx idx, a ∈ topkIdx (instMasked score idx g) k)

end SelectorDefs


section AnalyticDefs

/-- Sigmoid, as applied by pred_scores.detach().sigmoid() at line 145. -/
noncomputable def sigmoid (x : ℝ) : ℝ := 1 / (1 + Real.exp (-x))

/-- Pointwise binary cross entropy with logits,
nn.BCEWithLogitsLoss(reduction="none") (line 26), in its mathematical form. -/
noncomputable def bceLogits (x y : ℝ) : ℝ :=
  -(y * Real.log (sigmoid x) + (1 - y) * Real.log (1 - sigmoid x))

/-- Softmax over the R bins of one box side (line 88, .softmax(3)). -/
noncomputable def softmaxV {R : ℕ} (l : Fin R → ℝ) (i : Fin R) : ℝ :=
  Real.exp (l i) / ∑ j, Real.exp (l j)

/-- The fixed projection vector self.proj = torch.arange(reg_max) (line 46). -/
noncomputable def projVec (R : ℕ) : Fin R → ℝ := fun i => (i : ℝ)

/-- Expected bin index of a bin distribution: the matmul against self.proj
at line 89. -/
noncomputable def expectedBin {R : ℕ} (p : Fin R → ℝ) : ℝ :=
  ∑ i, p i * projVec R i

/-- Modelled from the spec: the external distance-to-box decoder dist2bbox
(called with xywh=False at line 93; its home utils/tal.py is not in the
snapshot).  Spec sections 4.2 and 6: combine the four offsets, read as
left-top-right-bottom distances, with the anchor point to produce a
corner-format box. -/
noncomputable def dist2bbox (d : Fin 4 → ℝ) (anc : ℝ × ℝ) : Fin 4 → ℝ :=
  ![anc.1 - d 0, anc.2 - d 1, anc.1 + d 2, anc.2 + d 3]

/-- The per-side offsets of bbox_decode (lines 84-92): with use_dfl
(reg_max > 1) the view(b, a, 4, c // 4).softmax(3).matmul(self.proj)
pipeline; without it (reg_max == 1) the single raw channel is the offset. -/
noncomputable def decodedDist {R : ℕ} (pd : Fin 4 → Fin R → ℝ) : Fin 4 → ℝ :=
  if 1 < R then fun s => expectedBin (softmaxV (pd s)) else fun s => ∑ i, pd s i

/-- v8DetectionLoss.bbox_decode (lines 82-93). -/
noncomputable def bboxDecode {B A R : ℕ} (anchors : Fin A → ℝ × ℝ)
    (pd : Fin B → Fin A → Fin 4 → Fin R → ℝ) :
    Fin B → Fin A → Fin 4 → ℝ :=
  fun b a => dist2bbox (decodedDist (pd b a)) (anchors a)

/-- Euclidean distance between embedding rows. -/
noncomputable def pdist {E : ℕ} (u v : Fin E → ℝ) : ℝ :=
  Real.sqrt (∑ e, (u e - v e) ^ 2)

/-- Modelled from the spec: kd_loss, the direct distance term of the
embedding loss (src/loss/torch/distillation_loss.py is not in the snapshot).
Spec sections 4.6 and 7: a distance-based term over the selected rows that
must be 0, not NaN, on an empty selection; modelled as the mean squared
Euclidean distance with the count floored at 1. -/
noncomputable def kd_loss {E : ℕ} (P T : List (Fin E → ℝ)) : ℝ :=
  ((P.zip T).map fun pt => ∑ e, (pt.1 e - pt.2 e) ^ 2).sum
    / ((max P.length 1 : ℕ) : ℝ)

/-- Modelled from the spec: rkd_loss, the relational/structural term of the
embedding loss (src/loss/torch/distillation_loss.py is not in the snapshot).
Spec sections 4.6 and 7: a relational distance-based term over the selected
rows, 0 on an empty selection; modelled as the mean squared difference of
pairwise distances with the pair count floored at 1. -/
noncomputable def rkd_loss {E : ℕ} (T P : List (Fin E → ℝ)) : ℝ :=
  ((T.zip P).bind fun x => (T.zip P).map fun y =>
      (pdist x.1 y.1 - pdist x.2 y.2) ^ 2).sum
    / ((max ((T.zip P).length * (T.zip P).length) 1 : ℕ) : ℝ)

/-- Row-major flattening of the boolean-mask selection t[mask] used at lines
189-190 and, through fgPairs, inside BboxLoss.forward. -/
def selectRows {B A : ℕ} {β : Type} (mask : Fin B → Fin A → Bool)
    (f : Fin B → Fin A → β) : List β :=
  (List.finRange B).bind fun b =>
    (List.finRange A).filterMap fun a => if mask b a then some (f b a) else none

/-- Row-major list of foreground positions: the flattening behind the
fg_mask boolean indexing in BboxLoss.forward. -/
def fgPairs {B A : ℕ} (fg : Fin B → Fin A → Bool) : List (Fin B × Fin A) :=
  selectRows fg (fun b a => (b, a))

end AnalyticDefs

section PreprocessDefs

/-- Modelled from the contract of the external converter
ultralytics.utils.ops.xywh2xyxy (spec section 6): center-size to corner
format. -/
noncomputable def xywh2xyxy (v : Fin 4 → ℝ) : Fin 4 → ℝ :=
  ![v 0 - v 2 / 2, v 1 - v 3 / 2, v 0 + v 2 / 2, v 1 + v 3 / 2]

/-- The counts.max() of preprocess (lines 54-57): the largest number of rows
sharing one image-index value, over the index values that occur. -/
def maxCount {k : ℕ} (rows : List (ℕ × (Fin k → ℝ))) : ℕ :=
  ((rows.map Prod.fst).map
      (fun v => rows.countP (fun r => decide (r.1 = v)))).foldr max 0

/-- The per-image fill of preprocess (lines 58-62): slot m of image j holds
the m-th row whose image index equals j; remaining slots keep their zero
initialization. -/
def fillRows {k : ℕ} (B : ℕ) (rows : List (ℕ × (Fin k → ℝ))) (M : ℕ) :
    Fin B → Fin M → Fin k → ℝ :=
  fun j m =>
    let rj := rows.filter (fun r => decide (r.1 = j.val))
    if h : m.val < rj.length then (rj.get ⟨m.val, h⟩).2 else fun _ => 0

/-- The in-place box rescale and format conversion at line 63,
out[..., 1:5] = xywh2xyxy(out[..., 1:5].mul_(scale_tensor)), applied to
every slot of the dense output (row width below 5 would make the slice
degenerate; target rows are image index, class and four box coordinates, so
k is at least 5 in every call). -/
noncomputable def applyBoxScale {k : ℕ} (scale : Fin 4 → ℝ) (row : Fin k → ℝ) : Fin k → ℝ :=
  fun i =>
    if h5 : 5 ≤ k then
      if h : 1 ≤ i.val ∧ i.val < 5 then
        xywh2xyxy (fun j => row ⟨j.val + 1, by have := j.isLt; omega⟩ * scale j)
          ⟨i.val - 1, by omega⟩
      else row i
    else row i

/-- v8DetectionLoss.preprocess (lines 48-64).  A target row is its image
index together with its remaining row_width - 1 columns (class then box), so
k here is the ne - 1 of the source.  With zero rows the result is the
zero-initialized (batch_size, 0, ne - 1) tensor and the else branch holding
the rescale/format-conversion step never runs. -/
noncomputable def preprocess {k : ℕ} (B : ℕ) (rows : List (ℕ × (Fin k → ℝ)))
    (scale : Fin 4 → ℝ) : Σ M : ℕ, Fin B → Fin M → Fin k → ℝ :=
  match rows with
  | [] => ⟨0, fun _ _ _ => 0⟩
  | r :: rs =>
      ⟨maxCount (r :: rs), fun j m i =>
        applyBoxScale scale (fillRows B (r :: rs) (maxCount (r :: rs)) j m) i⟩

/-- v8DetectionLoss.preprocess_embedding (lines 66-80): the identical
reshape without any box rescale or format conversion. -/
noncomputable def preprocessEmbedding {k : ℕ} (B : ℕ) (rows : List (ℕ × (Fin k → ℝ))) :
    Σ M : ℕ, Fin B → Fin M → Fin k → ℝ :=
  match rows with
  | [] => ⟨0, fun _ _ _ => 0⟩
  | r :: rs => ⟨maxCount (r :: rs), fillRows B (r :: rs) (maxCount (r :: rs))⟩

end PreprocessDefs


section PipelineDefs

/-- The loss gains, self.hyp (lines 27-32; defaults box 7.5, cls 0.5,
dfl 1.5, embed 1). -/
structure LossGains where
  boxGain : ℝ
  clsGain : ℝ
  dflGain : ℝ
  embedGain : ℝ

/-- The argument tuple passed to self.assigner at lines 143-154. -/
structure AsgIn (B A C NI E : ℕ) where
  pdScores : Fin B → Fin A → Fin C → ℝ
  pdBboxes : Fin B → Fin A → Fin 4 → ℝ
  pdEmbeds : Fin B → Fin A → Fin E → ℝ
  ancPoints : Fin A → ℝ × ℝ
  gtLabels : Fin B → Fin NI → ℝ
  gtBboxes : Fin B → Fin NI → Fin 4 → ℝ
  gtEmbeds : Fin B → Fin NI → Fin E → ℝ
  maskGt : Fin B → Fin NI → Bool

/-- The assigner outputs consumed by __call__ (line 143).  The assigner
itself lives in utils/tal.py, which is not in the snapshot; per spec section
4.3 it returns target boxes, target class scores, target embeddings, a
foreground mask, and a per-position ground-truth-instance index with a
sentinel (modelled as none) for unassigned/background positions.  The
returned target labels are unused downstream and omitted. -/
structure AsgOut (B A C E : ℕ) where
  targetBboxes : Fin B → Fin A → Fin 4 → ℝ
  targetScores : Fin B → Fin A → Fin C → ℝ
  targetEmbeds : Fin B → Fin A → Fin E → ℝ
  fgMask : Fin B → Fin A → Bool
  targetGtIdx : Fin B → Fin A → Option ℕ

/-- The external primitives used by __call__ and BboxLoss.forward, kept
abstract: ciou is ultralytics bbox_iou with CIoU=True (line 223); dfl is the
composition of bbox2dist and DFLoss at lines 229-238 giving the
distribution-focal value of one foreground position; asg is the
TaskAlignedAssigner from utils/tal.py. -/
structure Prims (B A C NI E R : ℕ) where
  ciou : (Fin 4 → ℝ) → (Fin 4 → ℝ) → ℝ
  dfl : (Fin 4 → Fin R → ℝ) → (ℝ × ℝ) → (Fin 4 → ℝ) → ℝ
  asg : AsgIn B A C NI E → AsgOut B A C E

/-- The per-call inputs of __call__ after the pure shape plumbing of lines
100-111 (view / permute / cat turn the per-level feature maps into
per-position tensors) and after the target preprocessing of lines 124-138
(preprocess and preprocess_embedding, verified separately): per-position
class logits, box-distribution logits and raw embeddings, the anchor points
and per-position strides from make_anchors, the padded ground-truth
tensors, and the per-call embed_topk (default 3). -/
structure Inputs (B A C NI E R : ℕ) where
  predScores : Fin B → Fin A → Fin C → ℝ
  predDistri : Fin B → Fin A → Fin 4 → Fin R → ℝ
  predEmbedsRaw : Fin B → Fin A → Fin E → ℝ
  anchorPoints : Fin A → ℝ × ℝ
  strideT : Fin A → ℝ
  gtLabels : Fin B → Fin NI → ℝ
  gtBboxes : Fin B → Fin NI → Fin 4 → ℝ
  gtEmbeds : Fin B → Fin NI → Fin E → ℝ
  embedTopk : ℕ

/-- The values returned by __call__ at line 200: loss.sum(), the detached
per-term vector after the gain multiplication, and the foreground mask. -/
structure CallOut (B A : ℕ) where
  total : ℝ
  breakdown : Fin 4 → ℝ
  fgMask : Fin B → Fin A → Bool

variable {B A C NI E R : ℕ}

/-- Lines 112-113: l2 normalization of the predicted embeddings (the l2
norm is the square root of the sum of squares). -/
noncomputable def normEmbeds (I : Inputs B A C NI E R) :
    Fin B → Fin A → Fin E → ℝ :=
  fun b a e => I.predEmbedsRaw b a e / Real.sqrt (∑ x, I.predEmbedsRaw b a x ^ 2)

/-- Line 141: pred_bboxes = self.bbox_decode(anchor_points, pred_distri). -/
noncomputable def predBoxes (I : Inputs B A C NI E R) :
    Fin B → Fin A → Fin 4 → ℝ :=
  bboxDecode I.anchorPoints I.predDistri

/-- The assigner arguments built at lines 143-154: sigmoid class scores,
decoded boxes and anchor points scaled by the stride tensor, normalized
embeddings, and the ground-truth tensors with mask_gt = gt_bboxes.sum(2) > 0
from line 136. -/
noncomputable def assignerInput (I : Inputs B A C NI E R) :
    AsgIn B A C NI E where
  pdScores := fun b a c => sigmoid (I.predScores b a c)
  pdBboxes := fun b a i => predBoxes I b a i * I.strideT a
  pdEmbeds := normEmbeds I
  ancPoints := fun a =>
    ((I.anchorPoints a).1 * I.strideT a, (I.anchorPoints a).2 * I.strideT a)
  gtLabels := I.gtLabels
  gtBboxes := I.gtBboxes
  gtEmbeds := I.gtEmbeds
  maskGt := fun b n => decide (0 < ∑ i, I.gtBboxes b n i)

/-- The assigner output used by the rest of __call__. -/
noncomputable def assignerOutput (P : Prims B A C NI E R)
    (I : Inputs B A C NI E R) : AsgOut B A C E :=
  P.asg (assignerInput I)

/-- The number of foreground positions, fg_mask.sum() (line 165). -/
def fgCount (out : AsgOut B A C E) : ℕ :=
  ((Finset.univ : Finset (Fin B × Fin A)).filter
    (fun p => out.fgMask p.1 p.2 = true)).card

/-- Line 156: target_scores_sum = max(target_scores.sum(), 1). -/
noncomputable def targetScoresSum (out : AsgOut B A C E) : ℝ :=
  max (∑ b, ∑ a, ∑ c, out.targetScores b a c) 1

/-- Lines 160-162: the classification term, pointwise BCE summed over every
position and class and divided by target_scores_sum. -/
noncomputable def clsLoss (I : Inputs B A C NI E R) (out : AsgOut B A C E) : ℝ :=
  (∑ b, ∑ a, ∑ c, bceLogits (I.predScores b a c) (out.targetScores b a c))
    / targetScoresSum out

/-- BboxLoss.forward (lines 211-243): the localization term, the
distribution-focal term (present exactly when reg_max > 1, line 209), and
the full per-position CIoU tensor returned for downstream use (line 243). -/
noncomputable def bboxLossForward
    (ciou : (Fin 4 → ℝ) → (Fin 4 → ℝ) → ℝ)
    (dfl : (Fin 4 → Fin R → ℝ) → (ℝ × ℝ) → (Fin 4 → ℝ) → ℝ)
    (pd : Fin B → Fin A → Fin 4 → Fin R → ℝ)
    (pb tb : Fin B → Fin A → Fin 4 → ℝ)
    (anc : Fin A → ℝ × ℝ)
    (ts : Fin B → Fin A → Fin C → ℝ)
    (tss : ℝ) (fg : Fin B → Fin A → Bool) :
    ℝ × ℝ × (Fin B → Fin A → ℝ) :=
  let weight := fun b a => ∑ c, ts b a c
  let iou := fun b a => ciou (pb b a) (tb b a)
  let lossIou :=
    ((fgPairs fg).map fun p => (1 - iou p.1 p.2) * weight p.1 p.2).sum / tss
  let lossDfl :=
    if 1 < R then
      ((fgPairs fg).map fun p =>
        dfl (pd p.1 p.2) (anc p.2) (tb p.1 p.2) * weight p.1 p.2).sum / tss
    else 0
  (lossIou, lossDfl, iou)

/-- Line 166: target_bboxes /= stride_tensor. -/
noncomputable def scaledTargetBoxes (I : Inputs B A C NI E R)
    (out : AsgOut B A C E) : Fin B → Fin A → Fin 4 → ℝ :=
  fun b a i => out.targetBboxes b a i / I.strideT a

/-- The BboxLoss invocation at lines 167-175. -/
noncomputable def bboxLossResult (P : Prims B A C NI E R)
    (I : Inputs B A C NI E R) : ℝ × ℝ × (Fin B → Fin A → ℝ) :=
  bboxLossForward P.ciou P.dfl I.predDistri (predBoxes I)
    (scaledTargetBoxes I (assignerOutput P I)) I.anchorPoints
    (assignerOutput P I).targetScores (targetScoresSum (assignerOutput P I))
    (assignerOutput P I).fgMask

/-- Line 177: iou_cls_scores = (iou_scores * target_scores).sum(-1); the
(b, a, 1)-shaped CIoU tensor broadcasts, so this is CIoU times the summed
target scores of the position. -/
noncomputable def iouClsScores (P : Prims B A C NI E R)
    (I : Inputs B A C NI E R) : Fin B → Fin A → ℝ :=
  fun b a =>
    (bboxLossResult P I).2.2 b a * ∑ c, (assignerOutput P I).targetScores b a c

/-- The embedding-selection mask of lines 178-185, image by image. -/
noncomputable def embedSelMask (P : Prims B A C NI E R)
    (I : Inputs B A C NI E R) : Fin B → Fin A → Bool :=
  fun b =>
    embedSelect (fun a => iouClsScores P I b a)
      (fun a => (assignerOutput P I).targetGtIdx b a) I.embedTopk

/-- The rows pred_embeds[embed_mask] fed to the distillation losses at lines
189-190. -/
noncomputable def kdPredRows (P : Prims B A C NI E R)
    (I : Inputs B A C NI E R) : List (Fin E → ℝ) :=
  selectRows (embedSelMask P I) (fun b a => normEmbeds I b a)

/-- The rows target_embeds[embed_mask] fed to the distillation losses at
lines 189-190: the assigner targets unchanged, with no normalization step
applied to them anywhere in __call__. -/
noncomputable def kdTargetRows (P : Prims B A C NI E R)
    (I : Inputs B A C NI E R) : List (Fin E → ℝ) :=
  selectRows (embedSelMask P I) (fun b a => (assignerOutput P I).targetEmbeds b a)

/-- The value __call__ builds when it does not crash (lines 156-200):
loss[0] and loss[2] from BboxLoss, loss[1] the classification term, loss[3]
= kd + rkd, each multiplied by its gain at lines 194-197, and their sum. -/
noncomputable def callCore (g : LossGains) (P : Prims B A C NI E R)
    (I : Inputs B A C NI E R) : CallOut B A :=
  let l0 := (bboxLossResult P I).1
  let l1 := clsLoss I (assignerOutput P I)
  let l2 := (bboxLossResult P I).2.1
  let l3 := kd_loss (kdPredRows P I) (kdTargetRows P I)
      + rkd_loss (kdTargetRows P I) (kdPredRows P I)
  let L : Fin 4 → ℝ :=
    ![l0 * g.boxGain, l1 * g.clsGain, l2 * g.dflGain, l3 * g.embedGain]
  { total := ∑ i, L i, breakdown := L, fgMask := (assignerOutput P I).fgMask }

/-- v8DetectionLoss.__call__ (lines 95-200).  When fg_mask has no true entry
the guard at line 165 skips the only assignment of iou_scores, and line 177
then raises UnboundLocalError instead of returning; this is the error
branch.  Otherwise the call returns normally with callCore. -/
noncomputable def call (g : LossGains) (P : Prims B A C NI E R)
    (I : Inputs B A C NI E R) : Except String (CallOut B A) :=
  if fgCount (assignerOutput P I) = 0 then
    Except.error ("UnboundLocalError: iou_scores referenced before assignment")
  else Except.ok (callCore g P I)

end PipelineDefs

section WitnessDefs

/-- Concrete one-position assigner output used by witnesses: one foreground
position of instance 0 whose target embedding is the constant 2, with zero
target scores. -/
noncomputable def asgOutW : AsgOut 1 1 1 1 where
  targetBboxes := fun _ _ _ => 0
  targetScores := fun _ _ _ => 0
  targetEmbeds := fun _ _ _ => 2
  fgMask := fun _ _ => true
  targetGtIdx := fun _ _ => some 0

/-- Concrete primitives for the one-position scenario. -/
noncomputable def primsW : Prims 1 1 1 1 1 1 where
  ciou := fun _ _ => 0
  dfl := fun _ _ _ => 0
  asg := fun _ => asgOutW

/-- Concrete inputs for the one-position scenario.  embed_topk is 1, equal
to the number of anchor positions, so the torch.topk call at line 182 is
within its valid range (k at most the vector length) and marks exactly that
position. -/
noncomputable def inputsW : Inputs 1 1 1 1 1 1 where
  predScores := fun _ _ _ => 0
  predDistri := fun _ _ _ _ => 0
  predEmbedsRaw := fun _ _ _ => 1
  anchorPoints := fun _ => (0, 0)
  strideT := fun _ => 1
  gtLabels := fun _ _ => 0
  gtBboxes := fun _ _ _ => 0
  gtEmbeds := fun _ _ _ => 0
  embedTopk := 1

/-- All-background assigner output: no foreground position, as produced for
a batch with zero ground-truth instances (spec section 8). -/
noncomputable def asgOutW0 : AsgOut 1 1 1 1 where
  targetBboxes := fun _ _ _ => 0
  targetScores := fun _ _ _ => 0
  targetEmbeds := fun _ _ _ => 0
  fgMask := fun _ _ => false
  targetGtIdx := fun _ _ => none

/-- Concrete primitives whose assigner reports no foreground anywhere. -/
noncomputable def primsW0 : Prims 1 1 1 1 1 1 where
  ciou := fun _ _ => 0
  dfl := fun _ _ _ => 0
  asg := fun _ => asgOutW0

/-- Unit gains used by witnesses. -/
noncomputable def gainsW : LossGains where
  boxGain := 1
  clsGain := 1
  dflGain := 1
  embedGain := 1

end WitnessDefs

/-! ### Theorems about the top-k model and the embedding selector -/

section TopKTheorems

variable {α : Type} [LinearOrder α] {A : ℕ}

theorem mem_topkIdx {v : Fin A → α} {k : ℕ} {i : Fin A} :
    i ∈ topkIdx v k ↔ rank v i < k := by
  simp [topkIdx]

theorem pref_irrefl (v : Fin A → α) (i : Fin A) : ¬ pref v i i := by
  simp [pref]

theorem pref_trans {v : Fin A → α} {a b c : Fin A}
    (h1 : pref v a b) (h2 : pref v b c) : pref v a c := by
  rcases h1 with h1 | ⟨h1e, h1l⟩ <;> rcases h2 with h2 | ⟨h2e, h2l⟩
  · exact Or.inl (lt_trans h2 h1)
  · exact Or.inl (lt_of_eq_of_lt h2e h1)
  · exact Or.inl (lt_of_lt_of_eq h2 h1e)
  · exact Or.inr ⟨h2e.trans h1e, lt_trans h1l h2l⟩

theorem pref_total (v : Fin A → α) {i j : Fin A} (h : i ≠ j) :
    pref v i j ∨ pref v j i := by
  rcases lt_trichotomy (v i) (v j) with hv | hv | hv
  · exact Or.inr (Or.inl hv)
  · rcases lt_or_gt_of_ne h with hij | hij
    · exact Or.inl (Or.inr ⟨hv.symm, hij⟩)
    · exact Or.inr (Or.inr ⟨hv, hij⟩)
  · exact Or.inl (Or.inl hv)

theorem rank_lt (v : Fin A → α) (i : Fin A) : rank v i < A := by
  have h1 : Finset.univ.filter (fun j => pref v j i) ⊆ Finset.univ.erase i := by
    intro j hj
    simp only [Finset.mem_filter] at hj
    refine Finset.mem_erase.mpr ⟨?_, Finset.mem_univ j⟩
    intro hji
    exact pref_irrefl v i (hji ▸ hj.2)
  calc rank v i ≤ (Finset.univ.erase i).card := Finset.card_le_card h1
    _ < (Finset.univ : Finset (Fin A)).card :=
        Finset.card_erase_lt_of_mem (Finset.mem_univ i)
    _ = A := by simp

theorem rank_lt_rank_of_pref {v : Fin A → α} {i j : Fin A} (h : pref v i j) :
    rank v i < rank v j := by
  apply Finset.card_lt_card
  have hsub : Finset.univ.filter (fun t => pref v t i)
      ⊆ Finset.univ.filter (fun t => pref v t j) := by
    intro t ht
    simp only [Finset.mem_filter] at ht ⊢
    exact ⟨Finset.mem_univ t, pref_trans ht.2 h⟩
  rw [Finset.ssubset_iff_of_subset hsub]
  refine ⟨i, ?_, ?_⟩
  · exact Finset.mem_filter.mpr ⟨Finset.mem_univ i, h⟩
  · intro hmem
    exact pref_irrefl v i (Finset.mem_filter.mp hmem).2

theorem rank_injective (v : Fin A → α) : Function.Injective (rank v) := by
  intro i j hij
  by_contra hne
  rcases pref_total v hne with h | h
  · exact lt_irrefl _ (hij ▸ rank_lt_rank_of_pref h)
  · exact lt_irrefl _ (hij ▸ rank_lt_rank_of_pref h)

theorem card_filter_val_lt (A k : ℕ) :
    ((Finset.univ : Finset (Fin A)).filter (fun m : Fin A => m.val < k)).card = min k A := by
  by_cases hk : A ≤ k
  · have h : (Finset.univ : Finset (Fin A)).filter (fun m : Fin A => m.val < k)
        = Finset.univ := by
      apply Finset.filter_true_of_mem
      intro m _
      exact lt_of_lt_of_le m.isLt hk
    rw [h, Finset.card_univ, Fintype.card_fin, Nat.min_eq_right hk]
  · push_neg at hk
    have h : (Finset.univ : Finset (Fin A)).filter (fun m : Fin A => m.val < k)
        = Finset.Iio (⟨k, hk⟩ : Fin A) := by
      ext m
      simp [Finset.mem_Iio, Fin.lt_def]
    rw [h, Fin.card_Iio, Nat.min_eq_left (le_of_lt hk)]

theorem card_topkIdx (v : Fin A → α) (k : ℕ) : (topkIdx v k).card = min k A := by
  have hinj : Function.Injective (fun i => (⟨rank v i, rank_lt v i⟩ : Fin A)) := by
    intro i j hij
    exact rank_injective v (congrArg Fin.val hij)
  have hbij : Function.Bijective (fun i => (⟨rank v i, rank_lt v i⟩ : Fin A)) :=
    Finite.injective_iff_bijective.mp hinj
  have h1 : (topkIdx v k).card
      = ((Finset.univ : Finset (Fin A)).filter (fun m : Fin A => m.val < k)).card := by
    apply Finset.card_bij (fun i _ => (⟨rank v i, rank_lt v i⟩ : Fin A))
    · intro i hi
      rw [mem_topkIdx] at hi
      simp [hi]
    · intro i _ j _ hEq
      exact hinj hEq
    · intro m hm
      simp only [Finset.mem_filter, Finset.mem_univ, true_and] at hm
      obtain ⟨i, hi⟩ := hbij.2 m
      refine ⟨i, ?_, hi⟩
      rw [mem_topkIdx]
      have : rank v i = m.val := congrArg Fin.val hi
      omega
  rw [h1, card_filter_val_lt]

end TopKTheorems

section SelectorTheorems

variable {α : Type} [LinearOrderedRing α] {A : ℕ}

theorem embedSelect_true_iff {score : Fin A → α} {idx : Fin A → Option ℕ}
    {k : ℕ} {a : Fin A} :
    embedSelect score idx k a = true
      ↔ ∃ g ∈ uniqueIdx idx, a ∈ topkIdx (instMasked score idx g) k := by
  simp [embedSelect]

theorem instMasked_eq_score {score : Fin A → α} {idx : Fin A → Option ℕ}
    {g : Option ℕ} {a : Fin A} (h : idx a = g) :
    instMasked score idx g a = score a := by
  simp [instMasked, h]

theorem instMasked_eq_zero {score : Fin A → α} {idx : Fin A → Option ℕ}
    {g : Option ℕ} {a : Fin A} (h : idx a ≠ g) :
    instMasked score idx g a = 0 := by
  simp [instMasked, h]

/-- When every position of instance g scores strictly positively and g owns
at least k positions, the top-k of the g-masked score stays inside the
positions of g. -/
theorem topkIdx_instMasked_subset {score : Fin A → α} {idx : Fin A → Option ℕ}
    {g : ℕ} {k : ℕ}
    (hpos : ∀ a, idx a = some g → 0 < score a)
    (hcard : k ≤ (Finset.univ.filter (fun a => idx a = some g)).card) :
    topkIdx (instMasked score idx (some g)) k
      ⊆ Finset.univ.filter (fun a => idx a = some g) := by
  intro i hi
  by_contra hni
  have hidx : idx i ≠ some g := by
    intro h
    exact hni (Finset.mem_filter.mpr ⟨Finset.mem_univ i, h⟩)
  have hmi : instMasked score idx (some g) i = 0 := instMasked_eq_zero hidx
  have hsub : Finset.univ.filter (fun a => idx a = some g)
      ⊆ Finset.univ.filter (fun j => pref (instMasked score idx (some g)) j i) := by
    intro j hj
    have hjg : idx j = some g := (Finset.mem_filter.mp hj).2
    refine Finset.mem_filter.mpr ⟨Finset.mem_univ j, Or.inl ?_⟩
    rw [hmi, instMasked_eq_score hjg]
    exact hpos j hjg
  have hge : k ≤ rank (instMasked score idx (some g)) i :=
    le_trans hcard (Finset.card_le_card hsub)
  exact absurd (mem_topkIdx.mp hi) (not_lt.mpr hge)

/-- When every position of instance g scores strictly positively and g owns
fewer than k positions, each of them has rank below k in the g-masked score,
hence lands in the top-k. -/
theorem rank_lt_of_small_instance {score : Fin A → α} {idx : Fin A → Option ℕ}
    {g : ℕ} {k : ℕ} {a : Fin A}
    (hpos : ∀ a, idx a = some g → 0 < score a)
    (hcard : (Finset.univ.filter (fun a => idx a = some g)).card < k)
    (ha : idx a = some g) :
    rank (instMasked score idx (some g)) a < k := by
  set m := instMasked score idx (some g) with hm
  have hma : 0 < m a := by
    rw [hm, instMasked_eq_score ha]
    exact hpos a ha
  have hsub : Finset.univ.filter (fun j => pref m j a)
      ⊆ (Finset.univ.filter (fun j => idx j = some g)).erase a := by
    intro j hj
    have hpref : pref m j a := (Finset.mem_filter.mp hj).2
    have hmj : 0 < m j := by
      rcases hpref with h | ⟨he, _⟩
      · exact lt_trans hma h
      · exact he ▸ hma
    have hjg : idx j = some g := by
      by_contra hne
      rw [hm, instMasked_eq_zero hne] at hmj
      exact lt_irrefl 0 hmj
    have hja : j ≠ a := by
      rintro rfl
      exact pref_irrefl m j hpref
    exact Finset.mem_erase.mpr ⟨hja, Finset.mem_filter.mpr ⟨Finset.mem_univ j, hjg⟩⟩
  have h1 : rank m a
      ≤ ((Finset.univ.filter (fun j => idx j = some g)).erase a).card :=
    Finset.card_le_card hsub
  have h2 : ((Finset.univ.filter (fun j => idx j = some g)).erase a).card
      = (Finset.univ.filter (fun j => idx j = some g)).card - 1 :=
    Finset.card_erase_of_mem (Finset.mem_filter.mpr ⟨Finset.mem_univ a, ha⟩)
  have h3 : 0 < (Finset.univ.filter (fun j => idx j = some g)).card :=
    Finset.card_pos.mpr ⟨a, Finset.mem_filter.mpr ⟨Finset.mem_univ a, ha⟩⟩
  omega

end SelectorTheorems

section HelperTheorems

variable {B A C NI E R : ℕ}

theorem sigmoid_pos (x : ℝ) : 0 < sigmoid x := by
  unfold sigmoid
  positivity

theorem sigmoid_lt_one (x : ℝ) : sigmoid x < 1 := by
  unfold sigmoid
  rw [div_lt_one (by positivity)]
  exact lt_add_of_pos_right 1 (Real.exp_pos (-x))

theorem bceLogits_nonneg (x y : ℝ) (h0 : 0 ≤ y) (h1 : y ≤ 1) :
    0 ≤ bceLogits x y := by
  unfold bceLogits
  have hs0 : (0 : ℝ) ≤ sigmoid x := le_of_lt (sigmoid_pos x)
  have hs1 : sigmoid x ≤ 1 := le_of_lt (sigmoid_lt_one x)
  have hl1 : Real.log (sigmoid x) ≤ 0 := Real.log_nonpos hs0 hs1
  have hl2 : Real.log (1 - sigmoid x) ≤ 0 :=
    Real.log_nonpos (by linarith) (by linarith)
  have hA : y * Real.log (sigmoid x) ≤ 0 := by
    have := mul_le_mul_of_nonneg_left hl1 h0
    simpa using this
  have hB : (1 - y) * Real.log (1 - sigmoid x) ≤ 0 := by
    have := mul_le_mul_of_nonneg_left hl2 (by linarith : (0:ℝ) ≤ 1 - y)
    simpa using this
  linarith

theorem call_eq_ok (g : LossGains) (P : Prims B A C NI E R)
    (I : Inputs B A C NI E R) (h : fgCount (assignerOutput P I) ≠ 0) :
    call g P I = Except.ok (callCore g P I) := by
  simp [call, h]

theorem sum_filterMap_ite {γ : Type} (l : List γ) (p : γ → Bool) (q : γ → ℝ) :
    (l.filterMap fun a => if p a then some (q a) else none).sum
      = (l.map fun a => if p a then q a else 0).sum := by
  induction l with
  | nil => rfl
  | cons a t ih =>
      by_cases h : p a <;>
        simp [List.filterMap_cons, h, ih]

theorem sum_map_bind {γ δ : Type} (l : List γ) (g : γ → List δ) (f : δ → ℝ) :
    ((l.bind g).map f).sum = (l.map fun b => ((g b).map f).sum).sum := by
  induction l with
  | nil => rfl
  | cons a t ih =>
      simp [List.cons_bind, List.map_append, List.sum_append, ih]

theorem sum_map_selectRows (mask : Fin B → Fin A → Bool)
    {β : Type} (q : Fin B → Fin A → β) (f : β → ℝ) :
    ((selectRows mask q).map f).sum
      = ∑ p ∈ Finset.univ.filter
          (fun p : Fin B × Fin A => mask p.1 p.2 = true), f (q p.1 p.2) := by
  unfold selectRows
  rw [sum_map_bind]
  have hinner : ∀ b : Fin B,
      ((((List.finRange A).filterMap
          fun a => if mask b a then some (q b a) else none).map f)).sum
        = ∑ a, if mask b a then f (q b a) else 0 := by
    intro b
    rw [List.map_filterMap]
    have hcongr : ((List.finRange A).filterMap
          fun a => Option.map f (if mask b a then some (q b a) else none))
        = (List.finRange A).filterMap
          fun a => if mask b a then some (f (q b a)) else none := by
      apply List.filterMap_congr
      intro a _
      by_cases h : mask b a <;> simp [h]
    rw [hcongr, sum_filterMap_ite]
    rw [Fin.sum_univ_def]
  have houter : ((List.finRange B).map
        fun b => (((List.finRange A).filterMap
          fun a => if mask b a then some (q b a) else none).map f).sum).sum
      = ∑ b, ∑ a, if mask b a then f (q b a) else 0 := by
    rw [Fin.sum_univ_def]
    congr 1
    apply List.map_congr_left
    intro b _
    exact hinner b
  rw [houter, Finset.sum_filter, Fintype.sum_prod_type]

end HelperTheorems

section ClaimC10

/-- C10: preprocess and preprocess_embedding on a target tensor with zero
rows return the zero tensor of shape (batch_size, 0, row_width - 1), and
the box rescale / format conversion step is skipped entirely (the output
does not depend on the scale tensor), so an annotation-free batch yields a
well-formed empty target tensor rather than an error. -/
theorem c10_preprocess_empty {k : ℕ} (B : ℕ) (s1 s2 : Fin 4 → ℝ) :
    preprocess B ([] : List (ℕ × (Fin k → ℝ))) s1
        = ⟨0, fun _ _ _ => 0⟩
    ∧ preprocess B ([] : List (ℕ × (Fin k → ℝ))) s1
        = preprocess B ([] : List (ℕ × (Fin k → ℝ))) s2
    ∧ preprocessEmbedding B ([] : List (ℕ × (Fin k → ℝ)))
        = ⟨0, fun _ _ _ => 0⟩ :=
  ⟨rfl, rfl, rfl⟩

end ClaimC10

section ClaimC1

/-- C1: contrary to the claim, a batch in which no prediction position is
foreground does not return normally: the guard at line 165 skips the only
assignment of iou_scores, so line 177 raises UnboundLocalError and no loss
value is returned at all. -/
theorem c1_no_foreground_crashes (g : LossGains) {B A C NI E R : ℕ}
    (P : Prims B A C NI E R) (I : Inputs B A C NI E R)
    (h : ∀ b a, (assignerOutput P I).fgMask b a = false) :
    call g P I
      = Except.error ("UnboundLocalError: iou_scores referenced before assignment") := by
  have hc : fgCount (assignerOutput P I) = 0 := by
    unfold fgCount
    rw [Finset.card_eq_zero, Finset.filter_eq_empty_iff]
    intro p _
    simp [h p.1 p.2]
  simp [call, hc]

/-- Witness for C1 at a concrete all-background instance. -/
theorem c1_no_foreground_crashes_witness :
    call gainsW primsW0 inputsW
      = Except.error ("UnboundLocalError: iou_scores referenced before assignment") :=
  c1_no_foreground_crashes gainsW primsW0 inputsW (fun _ _ => rfl)

end ClaimC1

section ClaimC9

/-- C9: with a fixed configuration (gains and primitives), two invocations
of __call__ on identical predictions and batch annotations produce
identical outputs; the pipeline is a pure function of its inputs and its
construction-time configuration. -/
theorem c9_call_deterministic (g : LossGains) {B A C NI E R : ℕ}
    (P : Prims B A C NI E R) (I1 I2 : Inputs B A C NI E R) (h : I1 = I2) :
    call g P I1 = call g P I2 := by
  rw [h]

/-- Witness for C9 at a concrete instance. -/
theorem c9_call_deterministic_witness :
    call gainsW primsW inputsW = call gainsW primsW inputsW :=
  c9_call_deterministic gainsW primsW inputsW inputsW rfl

end ClaimC9

section ClaimC5

/-- C5: the classification term computed by __call__ equals the pointwise
binary cross entropy with logits between all predicted class scores and the
target class scores, summed over every position and class and divided by
max(sum of all target scores, 1), and that divisor is never below 1.  (The
returned breakdown entry additionally carries the cls gain factor from line
195.) -/
theorem c5_cls_loss_formula (g : LossGains) {B A C NI E R : ℕ}
    (P : Prims B A C NI E R) (I : Inputs B A C NI E R) :
    (callCore g P I).breakdown 1
        = g.clsGain * ((∑ b, ∑ a, ∑ c, bceLogits (I.predScores b a c)
              ((assignerOutput P I).targetScores b a c))
            / max (∑ b, ∑ a, ∑ c, (assignerOutput P I).targetScores b a c) 1)
    ∧ (1 : ℝ)
        ≤ max (∑ b, ∑ a, ∑ c, (assignerOutput P I).targetScores b a c) 1 := by
  constructor
  · show (callCore g P I).breakdown 1 = _
    simp only [callCore, Matrix.cons_val_one, Matrix.head_cons, clsLoss,
      targetScoresSum]
    ring
  · exact le_max_right _ _

end ClaimC5

section ClaimC7

/-- C7: with reg_max > 1, bbox_decode applies softmax over the R bins of
each side, takes the expected bin index against the projection vector
0..R-1, and combines the four offsets with the anchor point into a
corner-format box; and for any probability vector that places all of its
mass on bin 0 the expected offset is exactly 0 (softmax outputs of finite
logits never reach an exact point mass over the reals, so the bin-0
condition of the claim is stated of the distribution itself). -/
theorem c7_bbox_decode {B A R : ℕ} (hR : 1 < R) (anchors : Fin A → ℝ × ℝ)
    (pd : Fin B → Fin A → Fin 4 → Fin R → ℝ) :
    (∀ b a, bboxDecode anchors pd b a
        = dist2bbox (fun s => expectedBin (softmaxV (pd b a s))) (anchors a))
    ∧ ∀ p : Fin R → ℝ, (∀ i, 0 ≤ p i) → (∑ i, p i) = 1 →
        p ⟨0, Nat.lt_of_lt_of_le Nat.zero_lt_one (le_of_lt hR)⟩ = 1 →
        expectedBin p = 0 := by
  constructor
  · intro b a
    unfold bboxDecode decodedDist
    rw [if_pos hR]
  · intro p hnn hsum h0
    have hzlt : 0 < R := Nat.lt_of_lt_of_le Nat.zero_lt_one (le_of_lt hR)
    have herase : ∑ i ∈ Finset.univ.erase (⟨0, hzlt⟩ : Fin R), p i = 0 := by
      have hsplit := Finset.add_sum_erase Finset.univ p
        (Finset.mem_univ (⟨0, hzlt⟩ : Fin R))
      rw [hsum] at hsplit
      have hp0 : p ⟨0, hzlt⟩ = 1 := h0
      linarith
    have hz : ∀ i, i ≠ (⟨0, hzlt⟩ : Fin R) → p i = 0 := by
      intro i hi
      exact (Finset.sum_eq_zero_iff_of_nonneg
          (fun j _ => hnn j)).mp herase i
        (Finset.mem_erase.mpr ⟨hi, Finset.mem_univ i⟩)
    unfold expectedBin projVec
    apply Finset.sum_eq_zero
    intro i _
    by_cases hiz : i = (⟨0, hzlt⟩ : Fin R)
    · rw [hiz]
      have hcast : ((⟨0, hzlt⟩ : Fin R) : ℝ) = 0 := by simp
      rw [hcast, mul_zero]
    · rw [hz i hiz, zero_mul]

/-- Witness for C7: the point-mass-on-bin-0 distribution over two bins has
expected bin index 0. -/
theorem c7_bbox_decode_witness :
    expectedBin (fun i : Fin 2 => if i = 0 then (1:ℝ) else 0) = 0 :=
  (c7_bbox_decode (B := 1) (A := 1) (by omega) (fun _ => ((0:ℝ), (0:ℝ)))
      (fun _ _ _ _ => 0)).2
    (fun i : Fin 2 => if i = 0 then (1:ℝ) else 0)
    (by
      intro i
      by_cases h : i = 0 <;> simp [h])
    (by norm_num [Fin.sum_univ_two])
    (by norm_num)

end ClaimC7

section ClaimC6

/-- C6: for inputs with at least one foreground position, the localization
loss returned by BboxLoss.forward equals the sum, over exactly the
foreground positions, of the per-position weight (the summed target class
scores) times one minus the complete IoU between the predicted and the
target box, divided by the normalization sum; only foreground positions
contribute. -/
theorem c6_bbox_loss {B A C R : ℕ}
    (ciou : (Fin 4 → ℝ) → (Fin 4 → ℝ) → ℝ)
    (dfl : (Fin 4 → Fin R → ℝ) → (ℝ × ℝ) → (Fin 4 → ℝ) → ℝ)
    (pd : Fin B → Fin A → Fin 4 → Fin R → ℝ)
    (pb tb : Fin B → Fin A → Fin 4 → ℝ) (anc : Fin A → ℝ × ℝ)
    (ts : Fin B → Fin A → Fin C → ℝ) (tss : ℝ) (fg : Fin B → Fin A → Bool)
    (hfg : ∃ b a, fg b a = true) :
    (bboxLossForward ciou dfl pd pb tb anc ts tss fg).1
      = (∑ p ∈ Finset.univ.filter (fun p : Fin B × Fin A => fg p.1 p.2 = true),
          (∑ c, ts p.1 p.2 c) * (1 - ciou (pb p.1 p.2) (tb p.1 p.2))) / tss := by
  have h1 : (bboxLossForward ciou dfl pd pb tb anc ts tss fg).1
      = ((fgPairs fg).map fun p : Fin B × Fin A =>
          (1 - ciou (pb p.1 p.2) (tb p.1 p.2)) * (∑ c, ts p.1 p.2 c)).sum / tss := rfl
  rw [h1]
  unfold fgPairs
  rw [sum_map_selectRows fg (fun b a => (b, a))
      (fun p : Fin B × Fin A =>
        (1 - ciou (pb p.1 p.2) (tb p.1 p.2)) * (∑ c, ts p.1 p.2 c))]
  congr 1
  apply Finset.sum_congr rfl
  intro p _
  show (1 - ciou (pb p.1 p.2) (tb p.1 p.2)) * (∑ c, ts p.1 p.2 c)
      = (∑ c, ts p.1 p.2 c) * (1 - ciou (pb p.1 p.2) (tb p.1 p.2))
  ring

/-- Witness for C6 at a concrete one-position instance. -/
theorem c6_bbox_loss_witness :
    (bboxLossForward (B := 1) (A := 1) (C := 1) (R := 1)
        (fun _ _ => (0:ℝ)) (fun _ _ _ => (0:ℝ)) (fun _ _ _ _ => (0:ℝ))
        (fun _ _ _ => (0:ℝ)) (fun _ _ _ => (0:ℝ)) (fun _ => ((0:ℝ), (0:ℝ)))
        (fun _ _ _ => (0:ℝ)) 1 (fun _ _ => true)).1
      = (∑ _p ∈ Finset.univ.filter
            (fun _ : Fin 1 × Fin 1 => (true : Bool) = true),
          (∑ _c : Fin 1, (0:ℝ)) * (1 - (0:ℝ))) / 1 :=
  c6_bbox_loss _ _ _ _ _ _ _ _ _ ⟨0, 0, rfl⟩

end ClaimC6

section ClaimC3

/-- C3: contrary to the claim, the loop at line 180 iterates every distinct
value of target_gt_idx including the unassigned/background sentinel, and —
because torch.topk always returns embed_topk indices while the mask
multiplication leaves non-instance positions at score 0 rather than
disqualifying-low — background positions get selected: here position 1
carries the sentinel (background) yet is marked by the mask, and the
sentinel itself is iterated.  The chosen scores make the selection
independent of any topk tie-break: the single foreground position 0 scores
5, so the two surplus slots of its top-3 necessarily land on zero-scored
background positions. -/
theorem c3_background_selected :
    embedSelect (![5, 0, 0, 0] : Fin 4 → ℤ) ![some 0, none, none, none] 3
        ⟨1, by omega⟩ = true
    ∧ (![some 0, none, none, none] : Fin 4 → Option ℕ) ⟨1, by omega⟩ = none
    ∧ none ∈ uniqueIdx (![some 0, none, none, none] : Fin 4 → Option ℕ) := by
  decide

end ClaimC3

section ClaimC2

/-- C2 counterexample: ground-truth instance 0 owns exactly embed_topk = 3
assigned positions (3, 4, 5), each with a negative joint quality score (a
negative complete IoU times positive target scores), yet the produced mask
selects none of them — 0 positions instead of the claimed exactly 3 —
because line 183 multiplies the score by the boolean mask, so every
non-instance position enters torch.topk with value 0, which beats the
negative in-instance scores.  No topk tie-break matters: in each iteration
the top-3 set is uniquely determined. -/
theorem c2_counterexample :
    (3 ≤ ((Finset.univ : Finset (Fin 6)).filter
        (fun a => (![some 1, some 1, some 1, some 0, some 0, some 0] :
            Fin 6 → Option ℕ) a = some 0)).card)
    ∧ ((Finset.univ : Finset (Fin 6)).filter
        (fun a => (![some 1, some 1, some 1, some 0, some 0, some 0] :
            Fin 6 → Option ℕ) a = some 0
          ∧ embedSelect (![5, 4, 3, -1, -1, -1] : Fin 6 → ℤ)
              ![some 1, some 1, some 1, some 0, some 0, some 0] 3 a = true)).card
        = 0 := by
  decide

/-- C2 amended: for an instance g all of whose assigned positions carry a
strictly positive joint quality score, at least embed_topk of its positions
are selected when it has at least embed_topk assigned positions (exactness
can fail, since surplus top-k slots of other iterations may also land on
positions of g), and all of its assigned positions are selected when it has
fewer.  Without the positivity condition the original claim fails, as the
counterexample shows. -/
theorem c2_selection_amended {α : Type} [LinearOrderedRing α] {A : ℕ}
    (score : Fin A → α) (idx : Fin A → Option ℕ) (g k : ℕ) (hk : 0 < k)
    (hpos : ∀ a, idx a = some g → 0 < score a) :
    (k ≤ (Finset.univ.filter (fun a => idx a = some g)).card →
      k ≤ ((Finset.univ.filter (fun a => idx a = some g)).filter
          (fun a => embedSelect score idx k a = true)).card)
    ∧ ((Finset.univ.filter (fun a => idx a = some g)).card < k →
      ∀ a, idx a = some g → embedSelect score idx k a = true) := by
  constructor
  · intro hcard
    have hsub1 : topkIdx (instMasked score idx (some g)) k
        ⊆ Finset.univ.filter (fun a => idx a = some g) :=
      topkIdx_instMasked_subset hpos hcard
    have hgm : some g ∈ uniqueIdx idx := by
      obtain ⟨a, ha⟩ := Finset.card_pos.mp (lt_of_lt_of_le hk hcard)
      exact Finset.mem_image.mpr ⟨a, Finset.mem_univ a, (Finset.mem_filter.mp ha).2⟩
    have hsub2 : topkIdx (instMasked score idx (some g)) k
        ⊆ (Finset.univ.filter (fun a => idx a = some g)).filter
            (fun a => embedSelect score idx k a = true) := by
      intro i hi
      exact Finset.mem_filter.mpr
        ⟨hsub1 hi, embedSelect_true_iff.mpr ⟨some g, hgm, hi⟩⟩
    have hkA : k ≤ A := by
      calc k ≤ (Finset.univ.filter (fun a => idx a = some g)).card := hcard
        _ ≤ (Finset.univ : Finset (Fin A)).card :=
            Finset.card_le_card (Finset.filter_subset _ _)
        _ = A := by simp
    calc k = min k A := (Nat.min_eq_left hkA).symm
      _ = (topkIdx (instMasked score idx (some g)) k).card :=
          (card_topkIdx _ _).symm
      _ ≤ _ := Finset.card_le_card hsub2
  · intro hcard a ha
    have hr : rank (instMasked score idx (some g)) a < k :=
      rank_lt_of_small_instance hpos hcard ha
    have hgm : some g ∈ uniqueIdx idx :=
      Finset.mem_image.mpr ⟨a, Finset.mem_univ a, ha⟩
    exact embedSelect_true_iff.mpr ⟨some g, hgm, mem_topkIdx.mpr hr⟩

/-- Witness for the amended C2 at a concrete positive-score instance. -/
theorem c2_selection_amended_witness :
    (3 ≤ ((Finset.univ : Finset (Fin 4)).filter
        (fun a => (![some 0, some 0, some 0, none] : Fin 4 → Option ℕ) a
          = some 0)).card →
      3 ≤ (((Finset.univ : Finset (Fin 4)).filter
          (fun a => (![some 0, some 0, some 0, none] : Fin 4 → Option ℕ) a
            = some 0)).filter
          (fun a => embedSelect (![5, 4, 3, 2] : Fin 4 → ℤ)
              ![some 0, some 0, some 0, none] 3 a = true)).card)
    ∧ (((Finset.univ : Finset (Fin 4)).filter
        (fun a => (![some 0, some 0, some 0, none] : Fin 4 → Option ℕ) a
          = some 0)).card < 3 →
      ∀ a, (![some 0, some 0, some 0, none] : Fin 4 → Option ℕ) a = some 0 →
        embedSelect (![5, 4, 3, 2] : Fin 4 → ℤ)
            ![some 0, some 0, some 0, none] 3 a = true) :=
  c2_selection_amended (![5, 4, 3, 2] : Fin 4 → ℤ)
    ![some 0, some 0, some 0, none] 0 3 (by decide) (by decide)

end ClaimC2

section ClaimC4

end ClaimC4

section ClaimC8

theorem kd_loss_nonneg {E : ℕ} (P T : List (Fin E → ℝ)) : 0 ≤ kd_loss P T := by
  unfold kd_loss
  apply div_nonneg
  · apply List.sum_nonneg
    intro x hx
    rw [List.mem_map] at hx
    obtain ⟨pt, _, rfl⟩ := hx
    exact Finset.sum_nonneg (fun e _ => sq_nonneg _)
  · exact Nat.cast_nonneg _

theorem rkd_loss_nonneg {E : ℕ} (T P : List (Fin E → ℝ)) : 0 ≤ rkd_loss T P := by
  unfold rkd_loss
  apply div_nonneg
  · apply List.sum_nonneg
    intro x hx
    rw [List.mem_bind] at hx
    obtain ⟨u, _, hu⟩ := hx
    rw [List.mem_map] at hu
    obtain ⟨w, _, rfl⟩ := hu
    exact sq_nonneg _
  · exact Nat.cast_nonneg _

theorem targetScoresSum_pos {B A C E : ℕ} (out : AsgOut B A C E) :
    (0:ℝ) < targetScoresSum out :=
  lt_of_lt_of_le one_pos (le_max_right _ _)

theorem clsLoss_nonneg {B A C NI E R : ℕ} (I : Inputs B A C NI E R)
    (out : AsgOut B A C E)
    (hts0 : ∀ b a c, 0 ≤ out.targetScores b a c)
    (hts1 : ∀ b a c, out.targetScores b a c ≤ 1) :
    0 ≤ clsLoss I out := by
  unfold clsLoss
  apply div_nonneg _ (le_of_lt (targetScoresSum_pos out))
  refine Finset.sum_nonneg (fun b _ => ?_)
  refine Finset.sum_nonneg (fun a _ => ?_)
  refine Finset.sum_nonneg (fun c _ => ?_)
  exact bceLogits_nonneg _ _ (hts0 b a c) (hts1 b a c)

theorem bboxLoss_fst_nonneg {B A C R : ℕ}
    (ciou : (Fin 4 → ℝ) → (Fin 4 → ℝ) → ℝ)
    (dfl : (Fin 4 → Fin R → ℝ) → (ℝ × ℝ) → (Fin 4 → ℝ) → ℝ)
    (pd : Fin B → Fin A → Fin 4 → Fin R → ℝ)
    (pb tb : Fin B → Fin A → Fin 4 → ℝ) (anc : Fin A → ℝ × ℝ)
    (ts : Fin B → Fin A → Fin C → ℝ) (tss : ℝ) (fg : Fin B → Fin A → Bool)
    (hciou : ∀ u w, ciou u w ≤ 1) (hts : ∀ b a c, 0 ≤ ts b a c)
    (htss : 0 ≤ tss) :
    0 ≤ (bboxLossForward ciou dfl pd pb tb anc ts tss fg).1 := by
  have h1 : (bboxLossForward ciou dfl pd pb tb anc ts tss fg).1
      = ((fgPairs fg).map fun p : Fin B × Fin A =>
          (1 - ciou (pb p.1 p.2) (tb p.1 p.2)) * (∑ c, ts p.1 p.2 c)).sum / tss := rfl
  rw [h1]
  apply div_nonneg _ htss
  apply List.sum_nonneg
  intro x hx
  rw [List.mem_map] at hx
  obtain ⟨p, _, rfl⟩ := hx
  apply mul_nonneg
  · linarith [hciou (pb p.1 p.2) (tb p.1 p.2)]
  · exact Finset.sum_nonneg (fun c _ => hts p.1 p.2 c)

theorem bboxLoss_snd_nonneg {B A C R : ℕ}
    (ciou : (Fin 4 → ℝ) → (Fin 4 → ℝ) → ℝ)
    (dfl : (Fin 4 → Fin R → ℝ) → (ℝ × ℝ) → (Fin 4 → ℝ) → ℝ)
    (pd : Fin B → Fin A → Fin 4 → Fin R → ℝ)
    (pb tb : Fin B → Fin A → Fin 4 → ℝ) (anc : Fin A → ℝ × ℝ)
    (ts : Fin B → Fin A → Fin C → ℝ) (tss : ℝ) (fg : Fin B → Fin A → Bool)
    (hdfl : ∀ d ap w, 0 ≤ dfl d ap w) (hts : ∀ b a c, 0 ≤ ts b a c)
    (htss : 0 ≤ tss) :
    0 ≤ (bboxLossForward ciou dfl pd pb tb anc ts tss fg).2.1 := by
  have h1 : (bboxLossForward ciou dfl pd pb tb anc ts tss fg).2.1
      = if 1 < R then
          ((fgPairs fg).map fun p : Fin B × Fin A =>
            dfl (pd p.1 p.2) (anc p.2) (tb p.1 p.2) * (∑ c, ts p.1 p.2 c)).sum / tss
        else 0 := rfl
  rw [h1]
  split_ifs
  · apply div_nonneg _ htss
    apply List.sum_nonneg
    intro x hx
    rw [List.mem_map] at hx
    obtain ⟨p, _, rfl⟩ := hx
    exact mul_nonneg (hdfl _ _ _) (Finset.sum_nonneg (fun c _ => hts p.1 p.2 c))
  · exact le_refl 0

/-- C8: whenever __call__ returns (see C1 for the input class on which it
instead raises), and under the documented contracts of the external
primitives — complete IoU at most 1, a nonnegative distribution-focal value,
target class scores in [0, 1] — and nonnegative gains (the defaults are
7.5, 0.5, 1.5, 1), the returned total loss is nonnegative and each entry of
the per-term breakdown (box, cls, dfl, embed) is nonnegative.  In this
real-valued semantics every value is a finite real number. -/
theorem c8_nonneg (g : LossGains) {B A C NI E R : ℕ}
    (P : Prims B A C NI E R) (I : Inputs B A C NI E R) (r : CallOut B A)
    (hbox : 0 ≤ g.boxGain) (hcls : 0 ≤ g.clsGain) (hdflg : 0 ≤ g.dflGain)
    (hembg : 0 ≤ g.embedGain)
    (hciou : ∀ u w, P.ciou u w ≤ 1)
    (hdfl : ∀ d ap w, 0 ≤ P.dfl d ap w)
    (hts0 : ∀ b a c, 0 ≤ (assignerOutput P I).targetScores b a c)
    (hts1 : ∀ b a c, (assignerOutput P I).targetScores b a c ≤ 1)
    (hret : call g P I = Except.ok r) :
    0 ≤ r.total ∧ ∀ i, 0 ≤ r.breakdown i := by
  by_cases hc : fgCount (assignerOutput P I) = 0
  · simp [call, hc] at hret
  · rw [call_eq_ok g P I hc] at hret
    have hr : r = callCore g P I := by
      injection hret with h
      exact h.symm
    subst hr
    have hl0 : 0 ≤ (bboxLossResult P I).1 := by
      unfold bboxLossResult
      exact bboxLoss_fst_nonneg _ _ _ _ _ _ _ _ _ hciou hts0
        (le_of_lt (targetScoresSum_pos _))
    have hl2 : 0 ≤ (bboxLossResult P I).2.1 := by
      unfold bboxLossResult
      exact bboxLoss_snd_nonneg _ _ _ _ _ _ _ _ _ hdfl hts0
        (le_of_lt (targetScoresSum_pos _))
    have hl1 : 0 ≤ clsLoss I (assignerOutput P I) :=
      clsLoss_nonneg I _ hts0 hts1
    have hl3 : 0 ≤ kd_loss (kdPredRows P I) (kdTargetRows P I)
        + rkd_loss (kdTargetRows P I) (kdPredRows P I) :=
      add_nonneg (kd_loss_nonneg _ _) (rkd_loss_nonneg _ _)
    have hb : ∀ i, 0 ≤ (callCore g P I).breakdown i := by
      intro i
      fin_cases i
      · exact mul_nonneg hl0 hbox
      · exact mul_nonneg hl1 hcls
      · exact mul_nonneg hl2 hdflg
      · exact mul_nonneg hl3 hembg
    refine ⟨?_, hb⟩
    have ht : (callCore g P I).total = ∑ i, (callCore g P I).breakdown i := rfl
    rw [ht]
    exact Finset.sum_nonneg (fun i _ => hb i)

/-- Witness for C8 at a concrete instance with one foreground position. -/
theorem c8_nonneg_witness :
    0 ≤ (callCore gainsW primsW inputsW).total
    ∧ ∀ i, 0 ≤ (callCore gainsW primsW inputsW).breakdown i := by
  have hfg : fgCount (assignerOutput primsW inputsW) ≠ 0 := by decide
  exact c8_nonneg gainsW primsW inputsW (callCore gainsW primsW inputsW)
    (by norm_num [gainsW]) (by norm_num [gainsW]) (by norm_num [gainsW])
    (by norm_num [gainsW])
    (fun u w => by norm_num [primsW])
    (fun d ap w => by norm_num [primsW])
    (fun b a c => le_refl 0)
    (fun b a c => zero_le_one)
    (call_eq_ok gainsW primsW inputsW hfg)

end ClaimC8

end DetLoss
